import Mathlib

/-!
Verification development for the `variable_dependencies` static-analysis tool
(calsim_toolkit). The tool is a single Python module built on a handful of
fixed regular expressions; we embed each regex as a direct scanner over
`List Char`, reproducing Python `re` leftmost, non-overlapping `finditer`
semantics (with the greedy/lazy behaviour of each concrete pattern), and embed
the three-pass resolver `main` as `analyze` over an in-memory corpus
(file loading and report rendering are external collaborators).
Texts are ASCII; `re.IGNORECASE` is modelled as ASCII case-insensitivity.
-/

/-- Span of a regex match: (start, end), end exclusive, offsets in the text. -/
abbrev Span := Nat × Nat

-- Character classes, by code point (Python `\s`, `\w`, `\d` on ASCII text).

def nlChar : Char := Char.ofNat 10

def lbrace : Char := Char.ofNat 123

def rbrace : Char := Char.ofNat 125

def lbrack : Char := Char.ofNat 91

def rbrack : Char := Char.ofNat 93

def isWS (c : Char) : Bool :=
  c.toNat = 32 || c.toNat = 9 || c.toNat = 10 || c.toNat = 13 || c.toNat = 11 || c.toNat = 12

def isDigitB (c : Char) : Bool := 48 ≤ c.toNat && c.toNat ≤ 57

def isWordChar (c : Char) : Bool :=
  (65 ≤ c.toNat && c.toNat ≤ 90) || (97 ≤ c.toNat && c.toNat ≤ 122) ||
    (48 ≤ c.toNat && c.toNat ≤ 57) || c.toNat = 95

def isUpperB (c : Char) : Bool := 65 ≤ c.toNat && c.toNat ≤ 90

/-- ASCII case-insensitive character equality (Python `re.IGNORECASE`);
`Char.toNat` is injective, so the first disjunct is plain equality. -/
def ciEqChar (a b : Char) : Bool :=
  a.toNat = b.toNat || (isUpperB a && b.toNat = a.toNat + 32) ||
    (isUpperB b && a.toNat = b.toNat + 32)

/-- Case-insensitive literal prefix test: `pat` matches at the head of `u`. -/
def ciStarts : List Char → List Char → Bool
  | [], _ => true
  | _ :: _, [] => false
  | a :: pa, b :: tb => ciEqChar a b && ciStarts pa tb

def charAt (s : List Char) (i : Nat) : Option Char := s.get? i

def isWordAt (s : List Char) (i : Nat) : Bool :=
  match s.get? i with
  | some c => isWordChar c
  | none => false

def isWSAt (s : List Char) (i : Nat) : Bool :=
  match s.get? i with
  | some c => isWS c
  | none => false

def isDigitAt (s : List Char) (i : Nat) : Bool :=
  match s.get? i with
  | some c => isDigitB c
  | none => false

/-- Is the character just before position `p` a word character? -/
def prevWordAt (s : List Char) (p : Nat) : Bool :=
  match p with
  | 0 => false
  | q + 1 => isWordAt s q

/-- Python regex `\b`: a word/non-word transition at position `p`. -/
def wordBoundary (s : List Char) (p : Nat) : Bool := prevWordAt s p != isWordAt s p

-- Generic scanning helpers.

/-- First position at or after the start of `l` holding `c` (positions offset by `p`). -/
def findCharAux (c : Char) : List Char → Nat → Option Nat
  | [], _ => none
  | d :: t, p => if d = c then some p else findCharAux c t (p + 1)

def findCharFrom (c : Char) (s : List Char) (i : Nat) : Option Nat :=
  findCharAux c (s.drop i) i

/-- As `findCharAux`, but fails upon reaching a newline first (patterns without DOTALL). -/
def findCharNoNlAux (c : Char) : List Char → Nat → Option Nat
  | [], _ => none
  | d :: t, p => if d = c then some p else if d = nlChar then none else findCharNoNlAux c t (p + 1)

def findCharNoNl (c : Char) (s : List Char) (i : Nat) : Option Nat :=
  findCharNoNlAux c (s.drop i) i

/-- First position where the two-character sequence `a b` occurs. -/
def findPairAux (a b : Char) : List Char → Nat → Option Nat
  | [], _ => none
  | [_], _ => none
  | c :: d :: t, p => if c = a ∧ d = b then some p else findPairAux a b (d :: t) (p + 1)

def findPairFrom (a b : Char) (s : List Char) (i : Nat) : Option Nat :=
  findPairAux a b (s.drop i) i

/-- Length of the maximal whitespace run starting at `i`. -/
def wsRunLen (s : List Char) (i : Nat) : Nat := ((s.drop i).takeWhile isWS).length

/-- Length of the maximal digit run starting at `i`. -/
def digitRunLen (s : List Char) (i : Nat) : Nat := ((s.drop i).takeWhile isDigitB).length

/-- Length of the maximal word-character run starting at `i`. -/
def wordRunLen (s : List Char) (i : Nat) : Nat := ((s.drop i).takeWhile isWordChar).length

/-- Python `re.finditer` driver: scan positions left to right, record a match's
span when the matcher fires, resume after the match (non-overlapping). All
matchers used here consume at least one character. Fuel `length + 1` suffices
since every step advances the position. -/
def finditer (m : Nat → Option Nat) : Nat → Nat → List Span
  | _, 0 => []
  | i, fuel + 1 =>
    match m i with
    | some j => if i < j then (i, j) :: finditer m j fuel else finditer m (i + 1) fuel
    | none => finditer m (i + 1) fuel

def findAll (m : Nat → Option Nat) (len : Nat) : List Span := finditer m 0 (len + 1)

-- Whitespace blanking: every removal in the tool replaces the matched span by
-- an equal-length run of spaces.  All spans are found on the original text, so
-- Python's sequential replacement equals a single pass marking covered indices.

def inAnySpan (j : Nat) (sps : List Span) : Bool :=
  sps.any fun sp => decide (sp.1 ≤ j ∧ j < sp.2)

def blankFrom (sps : List Span) : List Char → Nat → List Char
  | [], _ => []
  | c :: t, j => (if inAnySpan j sps then ' ' else c) :: blankFrom sps t (j + 1)

def blankSpans (code : List Char) (sps : List Span) : List Char := blankFrom sps code 0

-- Matchers for the tool's fixed patterns, one per regex.

/-- Pattern `/\*.*?\*/` with DOTALL: from `/*`, lazily to the first `*/`. -/
def matchBlockComment (s : List Char) (i : Nat) : Option Nat :=
  if s.get? i = some '/' ∧ s.get? (i + 1) = some '*' then
    (findPairFrom '*' '/' s (i + 2)).map (· + 2)
  else none

/-- Pattern `!.*(?=\n)`: from `!` to just before the next newline; no match
when no newline follows (the lookahead never succeeds). -/
def matchBang (s : List Char) (i : Nat) : Option Nat :=
  if s.get? i = some '!' then findCharFrom nlChar s (i + 1) else none

def caseKw : List Char := "case".toList

/-- Pattern `case.*?{.*?}` with DOTALL (case-sensitive, as in `remove_cases`). -/
def matchCaseBlock (s : List Char) (i : Nat) : Option Nat :=
  if caseKw.isPrefixOf (s.drop i) then
    match findCharFrom lbrace s (i + 4) with
    | some j => (findCharFrom rbrace s (j + 1)).map (· + 1)
    | none => none
  else none

/-- Pattern `\bcase.*?{` with IGNORECASE but no DOTALL (the `case` entry of the
keyword loop in `remove_non_variables`): the `{` must come before any newline. -/
def matchCaseKey (s : List Char) (i : Nat) : Option Nat :=
  if wordBoundary s i && ciStarts caseKw (s.drop i) then
    (findCharNoNl lbrace s (i + 4)).map (· + 1)
  else none

/-- Pattern `\b\d\.?\d*\b`: one digit, optional dot, digits, word boundaries;
greedy backtracking on `\.?` and `\d*` as in Python `re`. -/
def matchNum (s : List Char) (i : Nat) : Option Nat :=
  if wordBoundary s i && isDigitAt s i then
    if s.get? (i + 1) = some '.' then
      let e := i + 2 + digitRunLen s (i + 2)
      if i + 2 < e then
        if isWordAt s e then some (i + 2) else some e
      else
        if isWordAt s (i + 2) then some (i + 2) else some (i + 1)
    else
      let e := i + 1 + digitRunLen s (i + 1)
      if isWordAt s e then none else some e
  else none

/-- Pattern `\[.+?\]` (no DOTALL): at least one non-newline character between
the brackets, lazily to the first `]`. -/
def matchCycle (s : List Char) (i : Nat) : Option Nat :=
  if s.get? i = some lbrack then
    match s.get? (i + 1) with
    | some c => if c = nlChar then none else (findCharNoNl rbrack s (i + 2)).map (· + 1)
    | none => none
  else none

/-- Pattern `\bKEY\b` with IGNORECASE for a reserved keyword `k`. -/
def matchKeyword (k : List Char) (s : List Char) (i : Nat) : Option Nat :=
  if wordBoundary s i && ciStarts k (s.drop i) && wordBoundary s (i + k.length) then
    some (i + k.length)
  else none

/-- Pattern `\b\w+\b`: a maximal word-character run. -/
def matchWord (s : List Char) (i : Nat) : Option Nat :=
  if wordBoundary s i && isWordAt s i then some (i + wordRunLen s i) else none

/-- Pattern `.*\n` (no DOTALL): one full line including its newline. -/
def matchLine (s : List Char) (i : Nat) : Option Nat :=
  (findCharFrom nlChar s i).map (· + 1)

-- The statement matcher `find_statement`: pattern
-- `statement \s+ var \s*?{ .*? }` with IGNORECASE and DOTALL, where
-- `var` is either a literal variable name or the default sub-pattern `.*?`.

/-- Lazy `\s*?{`: skip whitespace minimally until an opening brace; the first
non-whitespace character reached must be the brace. Returns its position. -/
def lazyWsBraceAux : List Char → Nat → Option Nat
  | [], _ => none
  | c :: t, q => if c = lbrace then some q else if isWS c then lazyWsBraceAux t (q + 1) else none

def lazyWsBrace (s : List Char) (q : Nat) : Option Nat := lazyWsBraceAux (s.drop q) q

/-- Try the literal variable name at position `p`, then `\s*?{.*?}`. -/
def tryVarAt (var s : List Char) (p : Nat) : Option Nat :=
  if ciStarts var (s.drop p) then
    match lazyWsBrace s (p + var.length) with
    | some r =>
      match findCharFrom rbrace s (r + 1) with
      | some k => some (k + 1)
      | none => none
    | none => none
  else none

/-- Greedy `\s+` backtracking: try the longest whitespace run first, then
shorter, down to a single whitespace character. -/
def tryWsVar (var s : List Char) (base : Nat) : Nat → Option Nat
  | 0 => none
  | m + 1 =>
    match tryVarAt var s (base + (m + 1)) with
    | some e => some e
    | none => tryWsVar var s base m

/-- Match of `statement\s+VAR\s*?{.*?}` (literal `VAR`) starting exactly at `i`. -/
def matchStmtLitFrom (stmt var s : List Char) (i : Nat) : Option Nat :=
  if ciStarts stmt (s.drop i) then
    tryWsVar var s (i + stmt.length) (wsRunLen s (i + stmt.length))
  else none

/-- Match of `statement\s+.*?\s*?{.*?}` (default variable pattern) starting at
`i`: with DOTALL the lazy run reaches the first `{` after at least one
whitespace character, then the first `}` after it. -/
def matchStmtAnyFrom (stmt s : List Char) (i : Nat) : Option Nat :=
  if ciStarts stmt (s.drop i) && isWSAt s (i + stmt.length) then
    match findCharFrom lbrace s (i + stmt.length + 1) with
    | some j =>
      match findCharFrom rbrace s (j + 1) with
      | some k => some (k + 1)
      | none => none
    | none => none
  else none

-- The module's functions (source names kept).

/-- Embeds `find_statement(code, statement, var)`: all matches of the statement
pattern, in order. `var = none` models the default sub-pattern `.*?`. -/
def find_statement (code : List Char) (statement : List Char) (var : Option (List Char)) :
    List Span :=
  match var with
  | some v => findAll (matchStmtLitFrom statement v code) code.length
  | none => findAll (matchStmtAnyFrom statement code) code.length

/-- Embeds `line_numbers`' per-offset loop: the 1-based index of the last line
whose closed span `[start, end]` contains the offset (`None` when no line does;
lines are the matches of `.*\n`, so an unterminated final line yields no line). -/
def lastHit (o : Nat) (lines : List Span) : Option Nat :=
  lines.enum.foldl (fun acc p => if p.2.1 ≤ o ∧ o ≤ p.2.2 then some (p.1 + 1) else acc) none

def lineSpans (code : List Char) : List Span := findAll (matchLine code) code.length

/-- Embeds `line_numbers(match, code)`. -/
def line_numbers (sp : Span) (code : List Char) : Option Nat × Option Nat :=
  (lastHit sp.1 (lineSpans code), lastHit sp.2 (lineSpans code))

def commentSpans (code : List Char) : List Span :=
  findAll (matchBlockComment code) code.length ++ findAll (matchBang code) code.length

/-- Embeds `remove_comments`: blank `/*...*/` and `!...` spans with spaces. -/
def remove_comments (code : List Char) : List Char := blankSpans code (commentSpans code)

def caseSpans (code : List Char) : List Span := findAll (matchCaseBlock code) code.length

/-- Embeds `remove_cases`: blank `case...{...}` spans with spaces. -/
def remove_cases (code : List Char) : List Char := blankSpans code (caseSpans code)

/-- The fixed reserved-keyword list `wresl_keys`, in source order. -/
def wresl_keys : List (List Char) :=
  ["initial".toList, "define".toList, "svar".toList, "goal".toList, "group".toList,
   "dvar".toList, "integer".toList, "alias".toList, "value".toList, "std".toList,
   "kind".toList, "units".toList, "weight".toList, "upper".toList, "lower".toList,
   "convert".toList, "name".toList, "type".toList, "desc".toList, "bounds".toList,
   "penalty".toList, "month".toList, "wateryear".toList, "always".toList, "never".toList,
   "constrain".toList, "include".toList, "case".toList, "condition".toList, "lhs".toList,
   "rhs".toList, "import".toList, "sequence".toList, "model".toList, "order".toList,
   "timeseries".toList, "lookup".toList, "select".toList, "from".toList, "where".toList,
   "given".toList, "use".toList, "sum".toList, "max".toList, "min".toList, "abs".toList,
   "binary".toList, "and".toList, "or".toList, "cfs".toList, "taf".toList,
   "storage".toList, "diversion".toList, "flow".toList]

def nonVarSpans (code : List Char) : List Span :=
  findAll (matchNum code) code.length ++ findAll (matchCycle code) code.length ++
    (wresl_keys.flatMap fun k =>
      if k = caseKw then findAll (matchCaseKey code) code.length
      else findAll (matchKeyword k code) code.length)

/-- Embeds `remove_non_variables`: blank numerals, `[...]` cycle references and
reserved keywords (`case` up to its `{`) with spaces. -/
def remove_non_variables (code : List Char) : List Char := blankSpans code (nonVarSpans code)

-- The dependency resolver: embedding of the analysis core of `main`.
-- The corpus loader is an external collaborator; the corpus is the insertion
-- ordered mapping `wresl_code` of relative file path to raw file text.

/-- One finding `(variable, file, line range, span)` as appended by `main`. -/
structure DepRec where
  var : List Char
  file : String
  lines : Option Nat × Option Nat
  span : Span
deriving DecidableEq, Repr

abbrev Corpus := List (String × List Char)

def defineKwStr : List Char := "define".toList

def goalKwStr : List Char := "goal".toList

/-- Pass-1 style corpus-wide definition search for a literal name `v`
(also reused verbatim by Pass 2 for each candidate input): sanitize every file
with comments and case blocks stripped, collect `define` statement matches. -/
def defineSearch (corpus : Corpus) (v : List Char) : List DepRec :=
  corpus.flatMap fun kv =>
    let temp := remove_cases (remove_comments kv.2)
    (find_statement temp defineKwStr (some v)).map fun sp =>
      ⟨v, kv.1, line_numbers sp kv.2, sp⟩

/-- Python `text.split(BRACE, 1)[0]`: the part before the first brace. -/
def headBeforeBrace (l : List Char) : List Char := l.takeWhile (· ≠ lbrace)

/-- Python `text.split(BRACE, 1)[1]`: the part after the first brace (the
brace is guaranteed present in every statement slice the resolver takes). -/
def bodyAfterBrace (l : List Char) : List Char := (l.dropWhile (· ≠ lbrace)).drop 1

def sliceSpan (v : List Char) (sp : Span) : List Char := (v.drop sp.1).take (sp.2 - sp.1)

/-- Words of the sanitized text, via `\b\w+\b` (match groups, in order). -/
def words (s : List Char) : List (List Char) :=
  (findAll (matchWord s) s.length).map fun sp => (s.drop sp.1).take (sp.2 - sp.1)

/-- Python `str.split()`: split on whitespace runs, dropping empty pieces. -/
def wsSplitAux : List Char → List Char → List (List Char)
  | [], acc => if acc = [] then [] else [acc.reverse]
  | c :: t, acc =>
    if isWS c then (if acc = [] then wsSplitAux t [] else acc.reverse :: wsSplitAux t [])
    else wsSplitAux t (c :: acc)

def wsSplit (l : List Char) : List (List Char) := wsSplitAux l []

/-- Python `head.split()[-1]`: the declared variable of a statement head. -/
def lastWordOf (l : List Char) : List Char := ((wsSplit l).getLast?).getD []

/-- Pass 2, candidate collection: for each definition of `var`, re-slice the
original file at the match span, take the body after the opening brace, strip
non-variable tokens, and collect the word tokens; `list(set(...))` is modelled
as `List.dedup` (Python's set order is unspecified). -/
def candidateInputs (corpus : Corpus) (var : List Char) : List (List Char) :=
  ((defineSearch corpus var).flatMap fun d =>
    match corpus.lookup d.file with
    | some v => words (remove_non_variables (bodyAfterBrace (sliceSpan v d.span)))
    | none => []).dedup

/-- Pass 2, re-resolution: one corpus-wide definition search per candidate. -/
def varInputs (corpus : Corpus) (var : List Char) : List DepRec :=
  (candidateInputs corpus var).flatMap fun s => defineSearch corpus s

/-- Pass-3 whole-word, case-insensitive search `\bvar\b` (is `found_it` non-empty). -/
def matchVarWordAt (var s : List Char) (p : Nat) : Bool :=
  wordBoundary s p && ciStarts var (s.drop p) && wordBoundary s (p + var.length)

def containsVarWord (var s : List Char) : Bool :=
  (List.range (s.length + 1)).any (matchVarWordAt var s)

/-- Pass 3: enumerate all `define` and `goal` statements of every sanitized
file; slice the raw text at each span, split at the first brace into head and
body, strip non-variable tokens from the body, search for `var` as a whole
word; on success record the head's last word as the dependent variable. -/
def varDepends (corpus : Corpus) (var : List Char) : List DepRec :=
  corpus.flatMap fun kv =>
    let temp := remove_cases (remove_comments kv.2)
    let ms := find_statement temp defineKwStr none ++ find_statement temp goalKwStr none
    ms.filterMap fun sp =>
      let sl := sliceSpan kv.2 sp
      let body := remove_non_variables (bodyAfterBrace sl)
      if containsVarWord var body then
        some ⟨lastWordOf (headBeforeBrace sl), kv.1, line_numbers sp kv.2, sp⟩
      else none

/-- Embeds the analysis core of `main(study, var)`: Pass 1 (definitions),
early **None** return when no definition matches anywhere, Pass 2 (inputs),
Pass 3 (dependents), packaged as `(defined, inputs, dependencies)`. -/
def analyze (corpus : Corpus) (var : List Char) :
    Option (List DepRec × List DepRec × List DepRec) :=
  let var_defines := defineSearch corpus var
  if var_defines = [] then none
  else some (var_defines, varInputs corpus var, varDepends corpus var)

-- Concrete corpora and texts used to instantiate the claims.

def c1corpus : Corpus := [("a.wresl", "define W \x7b \x7d\n".toList)]

def c3corpus : Corpus :=
  [("a.wresl", "define S_SHSTA \x7b kind \x27storage\x27 upper 100.0 \x7d\n".toList),
   ("b.wresl", "goal G1 \x7b S_SHSTA >= 10.0 \x7d\n".toList)]

def c4text : List Char := "define S_SHSTA_2 \x7b 1 \x7d goal XS_SHSTA \x7b 2 \x7d".toList

def c4var : List Char := "S_SHSTA".toList

def c5cxCorpus : Corpus := [("f.wresl", "x!define S \x7b \x7d".toList)]

def c5amCorpus : Corpus :=
  [("g.wresl", "/* define SXY \x7b \x7d */\ndefine Q \x7b 3 \x7d\n".toList)]

def c6cxCorpus : Corpus :=
  [("a.wresl", "define X \x7b /* Y */ \x7d\n".toList),
   ("b.wresl", "define Y \x7b 2 \x7d\n".toList)]

def c6caseCorpus : Corpus :=
  [("a.wresl", "define X \x7b case a \x7b Y \x7d \x7d\n".toList),
   ("b.wresl", "define Y \x7b 2 \x7d\n".toList)]

def c7cxCorpus : Corpus :=
  [("a.wresl", "define S \x7b 1 \x7d\n".toList),
   ("b.wresl", "goal G1 \x7b /* S */ \x7d\n".toList)]

def c7bangCorpus : Corpus :=
  [("a.wresl", "define S \x7b 1 \x7d\n".toList),
   ("b.wresl", "goal G2 \x7b ! S\n \x7d\n".toList)]

def c9text : List Char := "a\nbc".toList

def c9okText : List Char := "ab\ncd\n".toList

def c10corpus : Corpus := [("f.wresl", "redefine X \x7b \x7d\n".toList)]

/-- Modelled from the spec (Line Mapper): the 1-based index of "the line whose
own span contains" offset `o` — one plus the number of newlines strictly
before `o`. -/
def specLineOf (code : List Char) (o : Nat) : Nat := (code.take o).count nlChar + 1

-- Blanking lemmas: a sanitizer output character is the original character
-- when its index is outside every matched span, and a space when inside.

theorem blankFrom_get? (sps : List Span) :
    ∀ (l : List Char) (i j : Nat),
      (blankFrom sps l i).get? j =
        if inAnySpan (i + j) sps then (l.get? j).map (fun _ => ' ') else l.get? j := by
  intro l
  induction l with
  | nil => intro i j; simp [blankFrom, List.get?]
  | cons c t ih =>
    intro i j
    cases j with
    | zero =>
      simp only [blankFrom, List.get?, Nat.add_zero, Option.map_some']
      split <;> rfl
    | succ j =>
      simp only [blankFrom, List.get?]
      rw [ih (i + 1) j, Nat.add_assoc, Nat.add_comm 1 j]

theorem blankFrom_length (sps : List Span) :
    ∀ (l : List Char) (i : Nat), (blankFrom sps l i).length = l.length := by
  intro l
  induction l with
  | nil => intro i; rfl
  | cons c t ih => intro i; simp [blankFrom, ih]

theorem blankSpans_length (code : List Char) (sps : List Span) :
    (blankSpans code sps).length = code.length := blankFrom_length sps code 0

theorem blankSpans_get?_or (code : List Char) (sps : List Span) (j : Nat) :
    (blankSpans code sps).get? j = code.get? j ∨ (blankSpans code sps).get? j = some ' ' := by
  unfold blankSpans
  rw [blankFrom_get? sps code 0 j]
  split
  · cases h : code.get? j <;> simp [h]
  · left; rfl

theorem blankSpans_get?_blank (code : List Char) (sps : List Span) (j : Nat)
    (hc : inAnySpan j sps = true) (hj : j < code.length) :
    (blankSpans code sps).get? j = some ' ' := by
  unfold blankSpans
  rw [blankFrom_get? sps code 0 j, Nat.zero_add, if_pos hc]
  cases h : code.get? j with
  | none => exact absurd (List.get?_eq_none.mp h) (Nat.not_le.mpr hj)
  | some c => rfl

theorem blankSpans_get?_of_ne (code : List Char) (sps : List Span) (j : Nat) (c : Char)
    (h : (blankSpans code sps).get? j = some c) (hne : c ≠ ' ') :
    code.get? j = some c := by
  unfold blankSpans at h
  rw [blankFrom_get? sps code 0 j] at h
  revert h
  split
  · cases hcc : code.get? j with
    | none => intro h; exact absurd h (by simp)
    | some d => intro h; exact absurd (Option.some.inj h).symm hne
  · exact fun h => h

/-- C1: Pass 1 finding no definition match makes `analyze` return the
non-fatal "not found" signal `none` (no report), and whenever `analyze`
returns a result, its `defined` collection is non-empty. -/
theorem claim_C1_not_found_signal (corpus : Corpus) (var : List Char) :
    (analyze corpus var = none ↔ defineSearch corpus var = []) ∧
      ∀ r, analyze corpus var = some r → r.1 ≠ [] := by
  by_cases h : defineSearch corpus var = []
  · refine ⟨by simp [analyze, h], fun r hr => ?_⟩
    simp [analyze, h] at hr
  · refine ⟨by simp [analyze, h], fun r hr => ?_⟩
    simp only [analyze] at hr
    rw [if_neg h] at hr
    cases hr
    simpa using h

/-- C1 witness: on a one-file corpus defining `W`, `analyze` returns a result
whose `defined` collection is non-empty. -/
theorem claim_C1_witness :
    (([⟨"W".toList, "a.wresl", (some 1, some 1), (0, 12)⟩], ([] : List DepRec),
        ([] : List DepRec)) : List DepRec × List DepRec × List DepRec).1 ≠ [] :=
  (claim_C1_not_found_signal c1corpus ("W".toList)).2 _ (by decide)

/-- C2: each sanitizer replaces every removed span by an equal-length run of
spaces, so its output has exactly the input's length and every output
character is either the original character or a space. -/
theorem claim_C2_length_preserving (code : List Char) :
    (remove_comments code).length = code.length ∧
    (remove_cases code).length = code.length ∧
    (remove_non_variables code).length = code.length ∧
    (∀ j, (remove_comments code).get? j = code.get? j ∨
      (remove_comments code).get? j = some ' ') ∧
    (∀ j, (remove_cases code).get? j = code.get? j ∨
      (remove_cases code).get? j = some ' ') ∧
    (∀ j, (remove_non_variables code).get? j = code.get? j ∨
      (remove_non_variables code).get? j = some ' ') :=
  ⟨blankSpans_length code _, blankSpans_length code _, blankSpans_length code _,
   fun j => blankSpans_get?_or code _ j, fun j => blankSpans_get?_or code _ j,
   fun j => blankSpans_get?_or code _ j⟩

/-- C3: on the two-file corpus `a.wresl = define S_SHSTA ... 100.0` and
`b.wresl = goal G1 ...`, analyzing `S_SHSTA` yields exactly one definition
record at `a.wresl`, an empty `inputs` collection, and exactly one dependency
record naming `G1` at `b.wresl`. -/
theorem claim_C3_concrete_scenario :
    analyze c3corpus ("S_SHSTA".toList) =
      some ([⟨"S_SHSTA".toList, "a.wresl", (some 1, some 1), (0, 45)⟩], [],
            [⟨"G1".toList, "b.wresl", (some 1, some 1), (0, 27)⟩]) := by decide

/-- C8: the candidate input names collected from the queried variable's
definition bodies are deduplicated before re-resolution — the candidate list
has no duplicate entries (so each distinct name occurs in it exactly once),
and Pass 2 runs exactly one corpus-wide definition search per entry of that
list. -/
theorem claim_C8_dedup (corpus : Corpus) (var : List Char) :
    (candidateInputs corpus var).Nodup ∧
      varInputs corpus var =
        (candidateInputs corpus var).flatMap (fun s => defineSearch corpus s) :=
  ⟨List.nodup_dedup _, rfl⟩

/-- C10: the statement-kind pattern is not anchored at a word boundary, so in
`redefine X { }` the trailing `define` of `redefine` matches as a
definition-statement kind and `X` is reported as defined. -/
theorem claim_C10_unanchored_kind :
    find_statement ("redefine X \x7b \x7d\n".toList) ("define".toList) (some ("X".toList)) =
        [(2, 14)] ∧
      analyze c10corpus ("X".toList) =
        some ([⟨"X".toList, "f.wresl", (some 1, some 1), (2, 14)⟩], [], []) := by decide

/-- C5 counterexample: in a file whose last line `x!define S { }` has no
trailing newline, the name `S` occurs only after a `!` line-comment marker,
yet Pass 1 reports it as a definition location — the `!`-comment pattern
requires a following newline (`(?=\n)`), so the final unterminated line is
never stripped. -/
theorem claim_C5_counterexample :
    analyze c5cxCorpus ("S".toList) =
      some ([⟨"S".toList, "f.wresl", (none, none), (2, 14)⟩], [], []) := by decide

/-- C6 counterexample: in `define X { /* Y */ }` the name `Y` occurs in the
definition body only inside a block comment, yet it is a candidate input —
Pass 2 runs only `remove_non_variables` on the body, never `remove_comments`. -/
theorem claim_C6_counterexample : "Y".toList ∈ candidateInputs c6cxCorpus ("X".toList) := by
  decide

/-- C6 amended: the Pass-2 definition-body substring is processed by
`remove_non_variables` only (keyword/numeric/cycle stripping) before word
tokens are collected — comments are NOT stripped from the body, so a name
occurring only inside a body comment IS a candidate input (and resolves into
`inputs` when defined elsewhere), and names inside case sub-blocks of the body
are candidates as well. -/
theorem claim_C6_amended :
    analyze c6cxCorpus ("X".toList) =
      some ([⟨"X".toList, "a.wresl", (some 1, some 1), (0, 20)⟩],
            [⟨"Y".toList, "b.wresl", (some 1, some 1), (0, 14)⟩], []) ∧
    analyze c6caseCorpus ("X".toList) =
      some ([⟨"X".toList, "a.wresl", (some 1, some 1), (0, 25)⟩],
            [⟨"Y".toList, "b.wresl", (some 1, some 1), (0, 14)⟩], []) := by decide

/-- C7 counterexample: in `goal G1 { /* S */ }` the queried name `S` occurs in
the statement body only inside a block comment, yet `G1` is recorded as a
dependent — Pass 3 re-slices the raw file text and sanitizes the body with
`remove_non_variables` only, so comment content is searched. -/
theorem claim_C7_counterexample :
    (⟨"G1".toList, "b.wresl", (some 1, some 1), (0, 19)⟩ : DepRec) ∈
      varDepends c7cxCorpus ("S".toList) := by decide

/-- C7 amended: comment content inside a statement body CAN produce a
dependent record: whole-file comment stripping affects only where statements
are located, while the searched body is re-sliced from the raw text and only
stripped of non-variable tokens — a queried name occurring only inside a `!`
line comment within a goal body still records that goal's variable. -/
theorem claim_C7_amended :
    analyze c7bangCorpus ("S".toList) =
      some ([⟨"S".toList, "a.wresl", (some 1, some 1), (0, 14)⟩], [],
            [⟨"G2".toList, "b.wresl", (some 1, some 2), (0, 16)⟩]) := by decide

/-- C9 counterexample: in the text `a\nbc` (no trailing newline) with span
(2, 3), the start offset 2 lies on line 2 and the end offset 3 on line 2, but
`line_numbers` returns `(some 1, none)` — offsets on an unterminated final
line are attributed to the previous line or to no line at all, because the
line pattern `.*\n` yields no match for the final line. -/
theorem claim_C9_counterexample :
    line_numbers (2, 3) c9text = (some 1, none) ∧
      line_numbers (2, 3) c9text ≠
        (some (specLineOf c9text 2), some (specLineOf c9text 3)) := by decide

-- Character-class facts used by the whole-word and stripping arguments.

theorem ciEqChar_word (a b : Char) (h : ciEqChar a b = true) : isWordChar a = isWordChar b := by
  rw [Bool.eq_iff_iff]
  simp only [ciEqChar, isUpperB, isWordChar, Bool.or_eq_true, Bool.and_eq_true,
    decide_eq_true_eq] at h ⊢
  omega

theorem isWS_not_word (c : Char) (h : isWS c = true) : isWordChar c = false := by
  rw [Bool.eq_false_iff]
  intro hw
  simp only [isWS, isWordChar, Bool.or_eq_true, Bool.and_eq_true, decide_eq_true_eq] at h hw
  omega

theorem lbrace_not_word : isWordChar lbrace = false := by decide

-- Structure of case-insensitive prefix matches.

theorem ciStarts_length : ∀ (pat u : List Char), ciStarts pat u = true → pat.length ≤ u.length := by
  intro pat
  induction pat with
  | nil => intro u _; simp
  | cons a pa ih =>
    intro u h
    cases u with
    | nil => simp [ciStarts] at h
    | cons b tb =>
      simp only [ciStarts, Bool.and_eq_true] at h
      simpa using ih tb h.2

theorem ciStarts_get :
    ∀ (pat u : List Char), ciStarts pat u = true →
      ∀ j, j < pat.length → ∃ a b, pat.get? j = some a ∧ u.get? j = some b ∧ ciEqChar a b = true := by
  intro pat
  induction pat with
  | nil => intro u _ j hj; simp at hj
  | cons a pa ih =>
    intro u h j hj
    cases u with
    | nil => simp [ciStarts] at h
    | cons b tb =>
      simp only [ciStarts, Bool.and_eq_true] at h
      cases j with
      | zero => exact ⟨a, b, rfl, rfl, h.1⟩
      | succ j =>
        simp only [List.length_cons, Nat.succ_lt_succ_iff] at hj
        obtain ⟨x, y, hx, hy, hxy⟩ := ih tb h.2 j hj
        exact ⟨x, y, hx, hy, hxy⟩

theorem ciStarts_congr :
    ∀ (pat u w : List Char), (∀ j, j < pat.length → u.get? j = w.get? j) →
      ciStarts pat u = ciStarts pat w := by
  intro pat
  induction pat with
  | nil => intro u w _; rfl
  | cons a pa ih =>
    intro u w h
    have h0 := h 0 (by simp)
    cases u with
    | nil =>
      cases w with
      | nil => rfl
      | cons c tw => simp [List.get?] at h0
    | cons b tu =>
      cases w with
      | nil => simp [List.get?] at h0
      | cons c tw =>
        simp only [List.get?] at h0
        cases h0
        simp only [ciStarts]
        rw [ih tu tw fun j hj => h (j + 1) (by simpa using Nat.succ_lt_succ hj)]

-- Scanning-structure lemmas: every reported span comes from a successful
-- matcher invocation at its start position.

theorem mem_finditer (m : Nat → Option Nat) :
    ∀ (fuel i : Nat) (sp : Span), sp ∈ finditer m i fuel → m sp.1 = some sp.2 ∧ i ≤ sp.1 := by
  intro fuel
  induction fuel with
  | zero => intro i sp h; simp [finditer] at h
  | succ fuel ih =>
    intro i sp h
    unfold finditer at h
    split at h
    next j hm =>
      split at h
      next hij =>
        rcases List.mem_cons.mp h with h | h
        · subst h; exact ⟨hm, Nat.le_refl _⟩
        · have h2 := ih j sp h
          exact ⟨h2.1, by omega⟩
      next hij =>
        have h2 := ih (i + 1) sp h
        exact ⟨h2.1, by omega⟩
    next hm =>
      have h2 := ih (i + 1) sp h
      exact ⟨h2.1, by omega⟩

theorem takeWhile_get (p : Char → Bool) :
    ∀ (l : List Char) (j : Nat), j < (l.takeWhile p).length →
      ∃ c, l.get? j = some c ∧ p c = true := by
  intro l
  induction l with
  | nil => intro j h; simp [List.takeWhile] at h
  | cons a t ih =>
    intro j h
    cases hp : p a with
    | false => rw [List.takeWhile_cons, hp] at h; simp at h
    | true =>
      rw [List.takeWhile_cons, hp] at h
      simp only [if_true] at h
      cases j with
      | zero => exact ⟨a, rfl, hp⟩
      | succ j =>
        simp only [List.length_cons, Nat.succ_lt_succ_iff] at h
        exact ih j h

theorem lazyWsBraceAux_head (l : List Char) (q r : Nat) (h : lazyWsBraceAux l q = some r) :
    ∃ c t, l = c :: t ∧ (c = lbrace ∨ isWS c = true) := by
  cases l with
  | nil => simp [lazyWsBraceAux] at h
  | cons c t =>
    refine ⟨c, t, rfl, ?_⟩
    by_cases hc : c = lbrace
    · exact Or.inl hc
    · unfold lazyWsBraceAux at h
      rw [if_neg hc] at h
      by_cases hw : isWS c = true
      · exact Or.inr hw
      · rw [if_neg hw] at h; cases h

theorem drop_head_get? (s : List Char) (q : Nat) (c : Char) (t : List Char)
    (h : s.drop q = c :: t) : s.get? q = some c := by
  have := List.get?_drop s q 0
  rw [h] at this
  simpa using this.symm

theorem tryVarAt_spec (var s : List Char) (p e : Nat) (h : tryVarAt var s p = some e) :
    ciStarts var (s.drop p) = true ∧
      ∃ c, s.get? (p + var.length) = some c ∧ (c = lbrace ∨ isWS c = true) := by
  unfold tryVarAt at h
  by_cases hs : ciStarts var (s.drop p) = true
  · refine ⟨hs, ?_⟩
    rw [if_pos hs] at h
    cases hl : lazyWsBrace s (p + var.length) with
    | none => rw [hl] at h; cases h
    | some r =>
      unfold lazyWsBrace at hl
      obtain ⟨c, t, hct, hc⟩ := lazyWsBraceAux_head _ _ _ hl
      exact ⟨c, drop_head_get? s (p + var.length) c t hct, hc⟩
  · rw [if_neg hs] at h; cases h

theorem tryWsVar_spec (var s : List Char) (base : Nat) :
    ∀ (m e : Nat), tryWsVar var s base m = some e →
      ∃ mm, 1 ≤ mm ∧ mm ≤ m ∧ tryVarAt var s (base + mm) = some e := by
  intro m
  induction m with
  | zero => intro e h; simp [tryWsVar] at h
  | succ m ih =>
    intro e h
    unfold tryWsVar at h
    cases ht : tryVarAt var s (base + (m + 1)) with
    | some e2 =>
      rw [ht] at h
      cases h
      exact ⟨m + 1, Nat.succ_le_succ (Nat.zero_le m), Nat.le_refl _, ht⟩
    | none =>
      rw [ht] at h
      obtain ⟨mm, h1, h2, h3⟩ := ih e h
      exact ⟨mm, h1, Nat.le_trans h2 (Nat.le_succ m), h3⟩

theorem matchStmtLitFrom_spec (stmt var s : List Char) (i e : Nat)
    (h : matchStmtLitFrom stmt var s i = some e) :
    ∃ p, 1 ≤ p ∧ ciStarts var (s.drop p) = true ∧
      (∃ cw, s.get? (p - 1) = some cw ∧ isWS cw = true) ∧
      (∃ cn, s.get? (p + var.length) = some cn ∧ (cn = lbrace ∨ isWS cn = true)) := by
  unfold matchStmtLitFrom at h
  by_cases hs : ciStarts stmt (s.drop i) = true
  · rw [if_pos hs] at h
    obtain ⟨mm, h1, h2, h3⟩ := tryWsVar_spec var s (i + stmt.length) _ e h
    have hvar := tryVarAt_spec var s (i + stmt.length + mm) e h3
    refine ⟨i + stmt.length + mm, by omega, hvar.1, ?_, hvar.2⟩
    have hj : mm - 1 < wsRunLen s (i + stmt.length) := by omega
    unfold wsRunLen at hj
    obtain ⟨c, hc, hwc⟩ := takeWhile_get isWS _ (mm - 1) hj
    rw [List.get?_drop] at hc
    refine ⟨c, ?_, hwc⟩
    have : i + stmt.length + mm - 1 = i + stmt.length + (mm - 1) := by omega
    rw [this]
    exact hc
  · rw [if_neg hs] at h; cases h

-- Word-boundary bookkeeping.

theorem isWordAt_get? (s : List Char) (p : Nat) (c : Char) (h : s.get? p = some c) :
    isWordAt s p = isWordChar c := by
  unfold isWordAt; rw [h]

theorem isWordAt_of_get? (s : List Char) (p : Nat) (c : Char) (h : s.get? p = some c)
    (hw : isWordChar c = true) : isWordAt s p = true := by
  rw [isWordAt_get? s p c h]; exact hw

theorem prevWordAt_succ (s : List Char) (p : Nat) : prevWordAt s (p + 1) = isWordAt s p := rfl

theorem wordBoundary_true_prev (s : List Char) (p : Nat) (h : wordBoundary s p = true)
    (hc : isWordAt s p = true) : prevWordAt s p = false := by
  cases hpw : prevWordAt s p with
  | false => rfl
  | true => unfold wordBoundary at h; rw [hpw, hc] at h; simp at h

theorem wordBoundary_true_next (s : List Char) (p : Nat) (h : wordBoundary s (p + 1) = true)
    (hc : isWordAt s p = true) : isWordAt s (p + 1) = false := by
  cases hnw : isWordAt s (p + 1) with
  | false => rfl
  | true =>
    unfold wordBoundary at h
    rw [prevWordAt_succ, hnw, hc] at h
    simp at h

theorem occ_char_word (V u : List Char) (hword : ∀ c ∈ V, isWordChar c = true)
    (hci : ciStarts V u = true) (j : Nat) (hj : j < V.length) :
    ∃ b, u.get? j = some b ∧ isWordChar b = true := by
  obtain ⟨a, b, ha, hb, hab⟩ := ciStarts_get V u hci j hj
  refine ⟨b, hb, ?_⟩
  rw [← ciEqChar_word a b hab]
  exact hword a (List.get?_mem ha)

/-- C4: whole-word matching — if every case-insensitive occurrence of the
literal name `V` (all word characters) in a text is flanked by a word
character (i.e. `V` appears only as a proper substring of longer identifiers,
as in `S_SHSTA` inside `S_SHSTA_2` or `XS_SHSTA`), then the statement matcher
finds no statement for `V` (for any statement kind) and the Pass-3 whole-word
body search `\bV\b` finds no occurrence either. -/
theorem claim_C4_whole_word (t V stmt : List Char)
    (hne : V ≠ [])
    (hword : ∀ c ∈ V, isWordChar c = true)
    (hocc : ∀ p, p ≤ t.length → ciStarts V (t.drop p) = true →
      (0 < p ∧ isWordAt t (p - 1) = true) ∨ isWordAt t (p + V.length) = true) :
    find_statement t stmt (some V) = [] ∧ containsVarWord V t = false := by
  have hVpos : 0 < V.length := List.length_pos.mpr hne
  constructor
  · cases hfs : find_statement t stmt (some V) with
    | nil => rfl
    | cons sp rest =>
      exfalso
      have hmem : sp ∈ find_statement t stmt (some V) := by
        rw [hfs]; exact List.mem_cons_self _ _
      unfold find_statement findAll at hmem
      have hm := (mem_finditer _ _ _ _ hmem).1
      obtain ⟨p, hp1, hciV, ⟨cw, hcw, hcwws⟩, ⟨cn, hcn, hcnb⟩⟩ :=
        matchStmtLitFrom_spec stmt V t sp.1 sp.2 hm
      have hlen := ciStarts_length V (t.drop p) hciV
      rw [List.length_drop] at hlen
      have hple : p ≤ t.length := by omega
      rcases hocc p hple hciV with ⟨hp0, hw⟩ | hw
      · rw [isWordAt_get? t (p - 1) cw hcw, isWS_not_word cw hcwws] at hw
        exact Bool.noConfusion hw
      · rw [isWordAt_get? t _ cn hcn] at hw
        rcases hcnb with hb | hb
        · rw [hb, lbrace_not_word] at hw; exact Bool.noConfusion hw
        · rw [isWS_not_word cn hb] at hw; exact Bool.noConfusion hw
  · cases hcv : containsVarWord V t with
    | false => rfl
    | true =>
      exfalso
      unfold containsVarWord at hcv
      obtain ⟨p, hpmem, hmat⟩ := List.any_eq_true.mp hcv
      simp only [matchVarWordAt, Bool.and_eq_true] at hmat
      obtain ⟨⟨hb1, hciV⟩, hb2⟩ := hmat
      have hlen := ciStarts_length V (t.drop p) hciV
      rw [List.length_drop] at hlen
      have hple : p ≤ t.length := by omega
      -- first character of the occurrence is a word character
      obtain ⟨b0, hb0, hb0w⟩ := occ_char_word V (t.drop p) hword hciV 0 hVpos
      rw [List.get?_drop, Nat.add_zero] at hb0
      have hWp : isWordAt t p = true := isWordAt_of_get? t p b0 hb0 hb0w
      -- last character of the occurrence is a word character
      obtain ⟨b1, hb1g, hb1w⟩ :=
        occ_char_word V (t.drop p) hword hciV (V.length - 1) (by omega)
      rw [List.get?_drop] at hb1g
      have hWlast : isWordAt t (p + (V.length - 1)) = true :=
        isWordAt_of_get? t _ b1 hb1g hb1w
      have hsucc : p + V.length = p + (V.length - 1) + 1 := by omega
      rw [hsucc] at hb2
      have hnext : isWordAt t (p + (V.length - 1) + 1) = false :=
        wordBoundary_true_next t _ hb2 hWlast
      have hprev : prevWordAt t p = false := wordBoundary_true_prev t p hb1 hWp
      rcases hocc p hple hciV with ⟨hp0, hw⟩ | hw
      · have hps : p = (p - 1) + 1 := by omega
        rw [hps, prevWordAt_succ, hw] at hprev
        exact Bool.noConfusion hprev
      · rw [hsucc, hnext] at hw
        exact Bool.noConfusion hw

/-- C4 witness: querying `S_SHSTA` against a text declaring `S_SHSTA_2` and
`XS_SHSTA` yields no statement match and no whole-word body occurrence. -/
theorem claim_C4_witness :
    find_statement c4text ("define".toList) (some c4var) = [] ∧
      containsVarWord c4var c4text = false :=
  claim_C4_whole_word c4text c4var ("define".toList) (by decide) (by decide) (by decide)

-- Comment/case stripping: an occurrence wholly inside a blanked span cannot
-- survive into the sanitized text that Pass 1 searches.

theorem space_not_word : isWordChar ' ' = false := by decide

theorem inAnySpan_of_mem (j : Nat) (sps : List Span) (sp : Span) (h : sp ∈ sps)
    (h1 : sp.1 ≤ j) (h2 : j < sp.2) : inAnySpan j sps = true := by
  unfold inAnySpan
  exact List.any_eq_true.mpr ⟨sp, h, by rw [decide_eq_true_eq]; exact ⟨h1, h2⟩⟩

/-- C5 amended: a variable name (non-empty, made of word characters) whose
every case-insensitive occurrence in a file lies wholly inside a span actually
matched by the comment patterns (`/*...*/` closed by `*/`, or `!...` followed
by a newline) or by the case-block pattern (on the comment-stripped text) is
never reported as a definition location by Pass 1; the claim's unconditional
form fails only for comment spans the patterns do not match, such as a `!`
comment on a final line with no trailing newline (see the counterexample). -/
theorem claim_C5_amended (corpus : Corpus) (V : List Char)
    (hne : V ≠ []) (hword : ∀ c ∈ V, isWordChar c = true)
    (hcov : ∀ kv ∈ corpus, ∀ p, p ≤ kv.2.length → ciStarts V (kv.2.drop p) = true →
      (∃ sp ∈ commentSpans kv.2, sp.1 ≤ p ∧ p + V.length ≤ sp.2) ∨
      (∃ sp ∈ caseSpans (remove_comments kv.2), sp.1 ≤ p ∧ p + V.length ≤ sp.2)) :
    defineSearch corpus V = [] ∧ analyze corpus V = none := by
  have hVpos : 0 < V.length := List.length_pos.mpr hne
  have hfile : ∀ kv ∈ corpus,
      find_statement (remove_cases (remove_comments kv.2)) defineKwStr (some V) = [] := by
    intro kv hkv
    set v := kv.2 with hv
    set s := remove_cases (remove_comments v) with hsdef
    have hslen : s.length = v.length := by
      rw [hsdef]
      unfold remove_cases remove_comments
      rw [blankSpans_length, blankSpans_length]
    cases hfs : find_statement s defineKwStr (some V) with
    | nil => rfl
    | cons sp rest =>
      exfalso
      have hmem : sp ∈ find_statement s defineKwStr (some V) := by
        rw [hfs]; exact List.mem_cons_self _ _
      unfold find_statement findAll at hmem
      have hm := (mem_finditer _ _ _ _ hmem).1
      obtain ⟨p, hp1, hciV, _, _⟩ := matchStmtLitFrom_spec defineKwStr V s sp.1 sp.2 hm
      have hlen := ciStarts_length V (s.drop p) hciV
      rw [List.length_drop] at hlen
      have hple : p ≤ v.length := by omega
      -- every character of the occurrence in the sanitized text is a word
      -- character, hence not a space, hence equal to the original character
      have hchar : ∀ j, j < V.length → ∃ b, s.get? (p + j) = some b ∧
          isWordChar b = true ∧ v.get? (p + j) = some b := by
        intro j hj
        obtain ⟨b, hbg, hbw⟩ := occ_char_word V (s.drop p) hword hciV j hj
        rw [List.get?_drop] at hbg
        have hbne : b ≠ ' ' := by
          intro hb
          rw [hb, space_not_word] at hbw
          exact Bool.noConfusion hbw
        have hbg2 : (remove_cases (remove_comments v)).get? (p + j) = some b := by
          rw [← hsdef]; exact hbg
        have hrc : (remove_comments v).get? (p + j) = some b := by
          unfold remove_cases at hbg2
          exact blankSpans_get?_of_ne (remove_comments v) _ (p + j) b hbg2 hbne
        have hvg : v.get? (p + j) = some b :=
          blankSpans_get?_of_ne v _ (p + j) b hrc hbne
        exact ⟨b, hbg, hbw, hvg⟩
      -- the occurrence is present in the original text as well
      have hciV' : ciStarts V (v.drop p) = true := by
        rw [← ciStarts_congr V (s.drop p) (v.drop p) ?_]
        · exact hciV
        · intro j hj
          obtain ⟨b, hbg, _, hvg⟩ := hchar j hj
          rw [List.get?_drop, List.get?_drop, hbg, hvg]
      obtain ⟨b0, hb0g, hb0w, _⟩ := hchar 0 hVpos
      rw [Nat.add_zero] at hb0g
      rcases hcov kv hkv p hple hciV' with ⟨spc, hspc, hc1, hc2⟩ | ⟨spc, hspc, hc1, hc2⟩
      · -- the occurrence start is blanked by remove_comments
        have hblank : (remove_comments v).get? p = some ' ' := by
          unfold remove_comments
          exact blankSpans_get?_blank v _ p
            (inAnySpan_of_mem p _ spc hspc hc1 (by omega)) (by omega)
        have hs0 : s.get? p = some ' ' := by
          rw [hsdef]
          unfold remove_cases
          rcases blankSpans_get?_or (remove_comments v) (caseSpans (remove_comments v)) p
            with h | h
          · rw [h]; exact hblank
          · exact h
        rw [hb0g] at hs0
        cases hs0
        rw [space_not_word] at hb0w
        exact Bool.noConfusion hb0w
      · -- the occurrence start is blanked by remove_cases
        have hs0 : s.get? p = some ' ' := by
          rw [hsdef]
          unfold remove_cases
          refine blankSpans_get?_blank (remove_comments v) _ p
            (inAnySpan_of_mem p _ spc hspc hc1 (by omega)) ?_
          have : (remove_comments v).length = v.length := by
            unfold remove_comments; rw [blankSpans_length]
          omega
        rw [hb0g] at hs0
        cases hs0
        rw [space_not_word] at hb0w
        exact Bool.noConfusion hb0w
  have hds : defineSearch corpus V = [] := by
    unfold defineSearch
    rw [List.flatMap_eq_nil_iff]
    intro kv hkv
    simp only [hfile kv hkv, List.map_nil]
  exact ⟨hds, by simp [analyze, hds]⟩

/-- C5 witness for the amended claim: `SXY` occurs only inside a closed block
comment, and Pass 1 reports nothing for it. -/
theorem claim_C5_witness :
    defineSearch c5amCorpus ("SXY".toList) = [] ∧ analyze c5amCorpus ("SXY".toList) = none :=
  claim_C5_amended c5amCorpus ("SXY".toList) (by decide) (by decide) (by decide)

-- Line-mapper correctness machinery: `findCharFrom` finds exactly the first
-- occurrence, newline counting tracks the `.*\n` line spans, and the
-- last-hit fold over the enumerated line spans picks the containing line.

theorem findCharAux_spec (c : Char) :
    ∀ (l : List Char) (p n : Nat), findCharAux c l p = some n →
      p ≤ n ∧ n - p < l.length ∧ l.get? (n - p) = some c ∧
        ∀ x, x < n - p → l.get? x ≠ some c := by
  intro l
  induction l with
  | nil => intro p n h; simp [findCharAux] at h
  | cons d t ih =>
    intro p n h
    unfold findCharAux at h
    by_cases hd : d = c
    · rw [if_pos hd] at h
      injection h with h
      subst h
      subst hd
      refine ⟨Nat.le_refl _, by simp, by simp, ?_⟩
      intro x hx
      omega
    · rw [if_neg hd] at h
      obtain ⟨h1, h2, h3, h4⟩ := ih (p + 1) n h
      have hpn : p + 1 ≤ n := h1
      refine ⟨by omega, by simp only [List.length_cons]; omega, ?_, ?_⟩
      · have hnp : n - p = (n - (p + 1)) + 1 := by omega
        rw [hnp]
        simpa using h3
      · intro x hx
        cases x with
        | zero =>
          simp only [List.get?]
          intro hcon
          exact hd (Option.some.inj hcon)
        | succ x =>
          have hx' : x < n - (p + 1) := by omega
          simpa using h4 x hx'

theorem findCharAux_none (c : Char) :
    ∀ (l : List Char) (p : Nat), findCharAux c l p = none → ∀ x, l.get? x ≠ some c := by
  intro l
  induction l with
  | nil => intro p _ x; simp [List.get?]
  | cons d t ih =>
    intro p h x
    unfold findCharAux at h
    by_cases hd : d = c
    · rw [if_pos hd] at h; cases h
    · rw [if_neg hd] at h
      cases x with
      | zero =>
        simp only [List.get?]
        intro hcon
        exact hd (Option.some.inj hcon)
      | succ x => simpa using ih (p + 1) h x

theorem findCharFrom_spec (c : Char) (s : List Char) (i n : Nat)
    (h : findCharFrom c s i = some n) :
    i ≤ n ∧ n < s.length ∧ s.get? n = some c ∧
      ∀ x, i ≤ x → x < n → s.get? x ≠ some c := by
  unfold findCharFrom at h
  obtain ⟨h1, h2, h3, h4⟩ := findCharAux_spec c (s.drop i) i n h
  rw [List.length_drop] at h2
  rw [List.get?_drop] at h3
  have hin : i + (n - i) = n := by omega
  rw [hin] at h3
  refine ⟨h1, by omega, h3, ?_⟩
  intro x hix hxn
  have := h4 (x - i) (by omega)
  rw [List.get?_drop] at this
  have hxe : i + (x - i) = x := by omega
  rw [hxe] at this
  exact this

theorem findCharFrom_exists (c : Char) (s : List Char) (i m : Nat)
    (hm : s.get? m = some c) (him : i ≤ m) :
    ∃ n, findCharFrom c s i = some n ∧ n ≤ m := by
  cases hf : findCharFrom c s i with
  | none =>
    exfalso
    unfold findCharFrom at hf
    have := findCharAux_none c (s.drop i) i hf (m - i)
    rw [List.get?_drop] at this
    have hxe : i + (m - i) = m := by omega
    rw [hxe] at this
    exact this hm
  | some n =>
    obtain ⟨h1, h2, h3, h4⟩ := findCharFrom_spec c s i n hf
    refine ⟨n, rfl, ?_⟩
    by_contra hgt
    exact h4 m him (by omega) hm

theorem count_take_eq (v : List Char) (c : Char) (i o : Nat) (hio : i ≤ o)
    (hno : ∀ x, i ≤ x → x < o → v.get? x ≠ some c) :
    (v.take o).count c = (v.take i).count c := by
  have hsplit := (List.take_append_drop i (v.take o)).symm
  have htt : (v.take o).take i = v.take i := by
    rw [List.take_take, Nat.min_eq_left hio]
  have hzero : ((v.take o).drop i).count c = 0 := by
    rw [List.count_eq_zero]
    intro hmem
    obtain ⟨idx, hidx⟩ := List.mem_iff_get?.mp hmem
    rw [List.get?_drop] at hidx
    have hlt : i + idx < o := by
      by_contra hge
      have hlen : (v.take o).length ≤ i + idx := by
        rw [List.length_take]; omega
      rw [List.get?_eq_none.mpr hlen] at hidx
      cases hidx
    rw [List.get?_take hlt] at hidx
    exact hno (i + idx) (by omega) hlt hidx
  calc (v.take o).count c
      = ((v.take o).take i ++ (v.take o).drop i).count c := by rw [← hsplit]
    _ = (v.take i).count c := by
        rw [List.count_append, htt, hzero, Nat.add_zero]

theorem count_take_succ_nl (v : List Char) (c : Char) (n : Nat) (h : v.get? n = some c) :
    (v.take (n + 1)).count c = (v.take n).count c + 1 := by
  rw [List.take_succ, ← List.get?_eq_getElem?, h, List.count_append]
  simp [List.count_singleton]

theorem finditer_cons (m : Nat → Option Nat) (i j fuel : Nat) (hm : m i = some j)
    (hij : i < j) : finditer m i (fuel + 1) = (i, j) :: finditer m j fuel := by
  have heq : finditer m i (fuel + 1) =
      match m i with
      | some j2 => if i < j2 then (i, j2) :: finditer m j2 fuel else finditer m (i + 1) fuel
      | none => finditer m (i + 1) fuel := rfl
  rw [heq, hm]
  exact if_pos hij

theorem foldl_enumFrom_skip (o : Nat) (L : List Span) :
    ∀ (k : Nat) (acc : Option Nat), (∀ sp ∈ L, o < sp.1) →
      (List.enumFrom k L).foldl
        (fun acc p => if p.2.1 ≤ o ∧ o ≤ p.2.2 then some (p.1 + 1) else acc) acc = acc := by
  induction L with
  | nil => intro k acc _; rfl
  | cons sp L ih =>
    intro k acc hall
    rw [List.enumFrom_cons, List.foldl_cons]
    rw [if_neg ?hno]
    case hno =>
      intro hcon
      exact absurd hcon.1 (Nat.not_le.mpr (hall sp (List.mem_cons_self _ _)))
    exact ih (k + 1) acc fun sp2 h2 => hall sp2 (List.mem_cons_of_mem _ h2)

theorem lineFold_spec (v : List Char) (o : Nat) (hnl : v.get? (v.length - 1) = some nlChar)
    (hopos : o < v.length) :
    ∀ (fuel i k : Nat) (acc : Option Nat),
      v.length + 1 ≤ fuel + i → i ≤ o → k = (v.take i).count nlChar →
      (List.enumFrom k (finditer (matchLine v) i fuel)).foldl
          (fun acc p => if p.2.1 ≤ o ∧ o ≤ p.2.2 then some (p.1 + 1) else acc) acc =
        some ((v.take o).count nlChar + 1) := by
  intro fuel
  induction fuel with
  | zero => intro i k acc hfuel hio hk; omega
  | succ fuel ih =>
    intro i k acc hfuel hio hk
    obtain ⟨n, hn, hnle⟩ := findCharFrom_exists nlChar v i (v.length - 1) hnl (by omega)
    obtain ⟨hin, hnlen, hgetn, hmin⟩ := findCharFrom_spec nlChar v i n hn
    have hml : matchLine v i = some (n + 1) := by unfold matchLine; rw [hn]; rfl
    have hstep : finditer (matchLine v) i (fuel + 1) =
        (i, n + 1) :: finditer (matchLine v) (n + 1) fuel :=
      finditer_cons (matchLine v) i (n + 1) fuel hml (by omega)
    rw [hstep, List.enumFrom_cons, List.foldl_cons]
    by_cases hon : o ≤ n
    · rw [if_pos ⟨show i ≤ o from hio, show o ≤ n + 1 by omega⟩]
      rw [foldl_enumFrom_skip o _ (k + 1) _ ?later]
      case later =>
        intro sp2 hsp2
        have := (mem_finditer _ _ _ _ hsp2).2
        omega
      have hco : (v.take o).count nlChar = (v.take i).count nlChar :=
        count_take_eq v nlChar i o hio fun x hx1 hx2 => hmin x hx1 (by omega)
      rw [hco, ← hk]
    · apply ih (n + 1) (k + 1) _ (by omega) (by omega)
      rw [count_take_succ_nl v nlChar n hgetn]
      rw [count_take_eq v nlChar i n hin hmin, ← hk]

theorem lastHit_spec (v : List Char) (o : Nat) (hnl : v.get? (v.length - 1) = some nlChar)
    (hopos : o < v.length) : lastHit o (lineSpans v) = some (specLineOf v o) := by
  unfold lastHit lineSpans findAll specLineOf
  rw [List.enum_eq_enumFrom]
  exact lineFold_spec v o hnl hopos (v.length + 1) 0 0 none (by omega) (by omega) (by simp)

/-- C9 amended: provided the text ends with a newline (so the `.*\n` line
pattern covers every offset) and both span offsets lie within the text,
`line_numbers` returns the 1-based line containing the span's start offset and
the 1-based line containing its end offset (one plus the number of newlines
before each offset); when both offsets fall on the same line the two returned
numbers are equal. Texts whose final line is unterminated are excluded (see
the counterexample). -/
theorem claim_C9_amended (v : List Char) (a b : Nat)
    (hend : v.getLast? = some nlChar) (ha : a < v.length) (hb : b < v.length) :
    line_numbers (a, b) v = (some (specLineOf v a), some (specLineOf v b)) ∧
      (specLineOf v a = specLineOf v b →
        (line_numbers (a, b) v).1 = (line_numbers (a, b) v).2) := by
  have hnl : v.get? (v.length - 1) = some nlChar := by
    rw [List.get?_eq_getElem?, ← List.getLast?_eq_getElem?]
    exact hend
  have h1 := lastHit_spec v a hnl ha
  have h2 := lastHit_spec v b hnl hb
  constructor
  · unfold line_numbers
    show (lastHit a (lineSpans v), lastHit b (lineSpans v)) = _
    rw [h1, h2]
  · intro he
    unfold line_numbers
    show lastHit a (lineSpans v) = lastHit b (lineSpans v)
    rw [h1, h2, he]

/-- C9 witness: in `ab\ncd\n`, the span (0, 4) is mapped to line 1 (offset 0)
and line 2 (offset 4). -/
theorem claim_C9_witness :
    line_numbers (0, 4) c9okText =
      (some (specLineOf c9okText 0), some (specLineOf c9okText 4)) :=
  (claim_C9_amended c9okText 0 4 (by decide) (by decide) (by decide)).1
